import Mathlib

/-!
Verification of the weekly Trackmania competition bot (src/main.py).

The development shallowly embeds the two core components of the program:

* the time codec: the pure functions parse_time and format_time;
* the competition store: the class WeeklyCompetition with its dictionaries
  player_names, player_times and author_times, and the operations add_time,
  set_author_time, get_map_leaderboard, get_overall_leaderboard,
  get_overall_totals_leaderboard, reset_week and weekly_reset_check.

Modelling conventions:

* Python strings are lists of characters (List Char); where a Lean String
  literal is convenient its .data field is taken.
* The regex class \d is modelled as Char.isDigit (ASCII digits); the inputs
  of interest are ASCII time strings.
* Python dicts are insertion-ordered association lists; assignment to an
  existing key keeps its position, assignment to a fresh key appends.
* python sorted(...) is a stable sort by the key function; it is embedded as
  List.insertionSort with the preorder induced by the key (insertionSort is
  a stable sort, and all stable sorts of a list by the same preorder agree).
* Machine integers are Nat / Int (Python ints are unbounded, so no overflow
  modelling is needed).  Millisecond counts are Nat, map numbers are Int
  (the Discord command converter can produce negative ints), splits are Int.
* Wall-clock access (get_current_week) is not embeddable; the freshly
  computed week key is passed to reset_week / weekly_reset_check as an
  explicit parameter, exactly where the code calls get_current_week().
  File persistence (save_data / load_data) is best-effort I/O outside the
  data contract and is not modelled.
-/

/-! ## Time codec: parse_time (src/main.py lines 747-769) -/

/-- Python int() on a string of decimal digits. -/
def strToNat (ds : List Char) : Nat :=
  ds.foldl (fun a c => a * 10 + (c.toNat - 48)) 0

/-- Python ms.ljust(3, chr 48)[:3]: right-pad with zeros to width 3, then
truncate to 3 characters. -/
def ljust3 (ds : List Char) : List Char :=
  (ds ++ List.replicate (3 - ds.length) '0').take 3

/-- Python str.strip(): remove leading and trailing whitespace. -/
def stripChars (s : List Char) : List Char :=
  ((s.dropWhile Char.isWhitespace).reverse.dropWhile Char.isWhitespace).reverse

/-- Python str.replace(',', '.'): normalise a decimal comma to a point. -/
def normalizeCommas (s : List Char) : List Char :=
  s.map (fun c => if c = ',' then '.' else c)

/-- Matcher for the anchored regex (\d+):(\d{1,2})[:.](\d{1,3}) and the
arithmetic on its groups.  The regex is compiled by hand: the minutes group
is the maximal leading digit run (it must be followed by a colon), the
seconds group is the maximal digit run after the colon (backtracking cannot
split a digit run because the following character must be a non-digit
separator), so the match fails exactly when that run is empty or longer
than two, and the fraction group is the whole remainder after the
separator. -/
def matchMinSecFrac (s : List Char) : Option Nat :=
  let mins := s.takeWhile Char.isDigit
  match s.dropWhile Char.isDigit with
  | ':' :: rest2 =>
    if mins.isEmpty then none
    else
      let secs := rest2.takeWhile Char.isDigit
      if secs.length = 0 ∨ 2 < secs.length then none
      else
        match rest2.dropWhile Char.isDigit with
        | sep :: frac =>
          if (sep = ':' ∨ sep = '.') ∧ ¬frac.isEmpty ∧ frac.length ≤ 3 ∧
              frac.all Char.isDigit then
            some (strToNat mins * 60000 + strToNat secs * 1000 +
              strToNat (ljust3 frac))
          else none
        | [] => none
  | _ => none

/-- Matcher for the anchored regex (\d+)\.(\d{1,3}), compiled by hand the
same way. -/
def matchSecFrac (s : List Char) : Option Nat :=
  let secs := s.takeWhile Char.isDigit
  match s.dropWhile Char.isDigit with
  | '.' :: frac =>
    if secs.isEmpty then none
    else if ¬frac.isEmpty ∧ frac.length ≤ 3 ∧ frac.all Char.isDigit then
      some (strToNat secs * 1000 + strToNat (ljust3 frac))
    else none
  | _ => none

/-- Matcher for the anchored regex (\d+): a bare millisecond count. -/
def matchBareMs (s : List Char) : Option Nat :=
  if ¬s.isEmpty ∧ s.all Char.isDigit then some (strToNat s) else none

/-- parse_time: strip whitespace, normalise commas, then try the three
surface forms in order; None when nothing matches. -/
def parse_time (s : List Char) : Option Nat :=
  let t := normalizeCommas (stripChars s)
  match matchMinSecFrac t with
  | some v => some v
  | none =>
    match matchSecFrac t with
    | some v => some v
    | none => matchBareMs t

/-! ## Time codec: format_time (src/main.py lines 771-779) -/

/-- The decimal digit character of d (valid for d < 10). -/
def digitChar (d : Nat) : Char := Char.ofNat (48 + d)

/-- Fuelled decimal rendering of a natural number (most significant digit
first); the fuel only serves structural recursion and any fuel above the
argument gives the same digits. -/
def natDigitsAux : Nat → Nat → List Char
  | 0, _ => []
  | fuel + 1, n =>
    if n < 10 then [digitChar n]
    else natDigitsAux fuel (n / 10) ++ [digitChar (n % 10)]

/-- Decimal rendering of a natural number, as Python str(n) produces it. -/
def natDigits (n : Nat) : List Char := natDigitsAux (n + 1) n

/-- Python format spec 0wd on a non-negative int: left-pad the decimal
digits with zeros to a minimum width w. -/
def zfill (w : Nat) (ds : List Char) : List Char :=
  List.replicate (w - ds.length) '0' ++ ds

/-- format_time: non-positive input is special-cased to 00:00.000;
otherwise zero-padded MM:SS.mmm from ms // 60000, (ms % 60000) // 1000 and
ms % 1000 (the operands are positive, so Nat division after toNat agrees
with Python //). -/
def format_time (ms : Int) : List Char :=
  if ms ≤ 0 then ("00:00.000").data
  else
    zfill 2 (natDigits (ms.toNat / 60000)) ++ ':' ::
      zfill 2 (natDigits (ms.toNat % 60000 / 1000)) ++ '.' ::
        zfill 3 (natDigits (ms.toNat % 1000))

/-! ## Competition store: dictionaries

Python dicts are embedded as insertion-ordered association lists: lookup
finds the first (and, in every state the program builds, only) binding;
assignment keeps the position of an existing key and appends a fresh key
at the end, exactly like a Python dict. -/

/-- Python d.get(k) / d[k]: the value bound to k, if any. -/
def dictLookup {κ α : Type} [DecidableEq κ] : List (κ × α) → κ → Option α
  | [], _ => none
  | (k', v) :: rest, k => if k' = k then some v else dictLookup rest k

/-- Python k in d. -/
def dictMem {κ α : Type} [DecidableEq κ] (l : List (κ × α)) (k : κ) : Bool :=
  (dictLookup l k).isSome

/-- Python d[k] = v: replace in place, or append a fresh binding. -/
def dictInsert {κ α : Type} [DecidableEq κ] : List (κ × α) → κ → α → List (κ × α)
  | [], k, v => [(k, v)]
  | (k', v') :: rest, k, v =>
    if k' = k then (k, v) :: rest else (k', v') :: dictInsert rest k v

/-! ## Competition store: state and mutations (src/main.py lines 81-185) -/

/-- The mutable state of WeeklyCompetition: the current week key and the
three dictionaries player_names, player_times and author_times.  The
data_file attribute and the constant week_maps labels play no role in the
data contract and are omitted. -/
structure CompState where
  current_week : String
  player_names : List (Nat × String)
  player_times : List (Nat × List (Int × Nat))
  author_times : List (Int × Nat)
deriving DecidableEq

/-- Python map_num in range(1, 6). -/
def inMapRange (m : Int) : Bool := 1 ≤ m && m < 6

/-- register_player: upsert the display name and ensure an inner time dict
exists (save_data is I/O and not modelled). -/
def register_player (st : CompState) (discord_id : Nat) (tm_username : String) :
    CompState :=
  { st with
    player_names := dictInsert st.player_names discord_id tm_username,
    player_times :=
      if dictMem st.player_times discord_id then st.player_times
      else dictInsert st.player_times discord_id [] }

/-- add_time: False when the player is unregistered or the map number is
out of range; otherwise ensure the inner dict exists and overwrite the
(player, map) slot.  The returned pair is (returned bool, state after). -/
def add_time (st : CompState) (discord_id : Nat) (map_num : Int) (time_ms : Nat) :
    Bool × CompState :=
  if ¬ dictMem st.player_names discord_id = true then (false, st)
  else if ¬ inMapRange map_num = true then (false, st)
  else
    let times0 :=
      if dictMem st.player_times discord_id then st.player_times
      else dictInsert st.player_times discord_id []
    let inner := (dictLookup times0 discord_id).getD []
    (true,
      { st with
        player_times := dictInsert times0 discord_id (dictInsert inner map_num time_ms) })

/-- set_author_time: False when the map number is out of range; otherwise
overwrite the reference time for that map. -/
def set_author_time (st : CompState) (map_num : Int) (time_ms : Nat) :
    Bool × CompState :=
  if ¬ inMapRange map_num = true then (false, st)
  else (true, { st with author_times := dictInsert st.author_times map_num time_ms })

/-! ## Competition store: leaderboard queries (src/main.py lines 187-268) -/

/-- Python self.player_names.get(discord_id, 'Unknown'). -/
def lookupName (st : CompState) (discord_id : Nat) : String :=
  (dictLookup st.player_names discord_id).getD ("Unknown")

/-- One row of get_map_leaderboard: the dict with keys discord_id,
tm_username, time and (after the split pass) split. -/
structure MapEntry where
  discord_id : Nat
  tm_username : String
  time : Nat
  split : Option Int
deriving DecidableEq

/-- The accumulation loop of get_map_leaderboard: one row per player whose
inner dict has a time for the map, in dict iteration order. -/
def mapEntriesFor (st : CompState) (map_num : Int) : List MapEntry :=
  st.player_times.filterMap (fun p =>
    match dictLookup p.2 map_num with
    | some t => some ⟨p.1, lookupName st p.1, t, none⟩
    | none => none)

/-- The sort key lambda x: x['time'] of get_map_leaderboard, as the
preorder it induces. -/
def timeLe (a b : MapEntry) : Prop := a.time ≤ b.time

instance : DecidableRel timeLe := fun a b => Nat.decLe a.time b.time

/-- One iteration of the split loop of get_map_leaderboard: a row whose
time equals the first (fastest) row's time gets split None, every other
row gets its difference from the fastest time. -/
def splitAgainst (first p : MapEntry) : MapEntry :=
  if p.time = first.time then { p with split := none }
  else { p with split := some ((p.time : Int) - (first.time : Int)) }

/-- The split pass of get_map_leaderboard over the sorted rows. -/
def addSplits (l : List MapEntry) : List MapEntry :=
  match l with
  | [] => []
  | first :: _ => l.map (splitAgainst first)

/-- get_map_leaderboard: empty for an out-of-range map, otherwise the
per-map rows sorted ascending by time with the split pass applied. -/
def get_map_leaderboard (st : CompState) (map_num : Int) : List MapEntry :=
  if ¬ inMapRange map_num = true then []
  else addSplits (List.insertionSort timeLe (mapEntriesFor st map_num))

/-- One row of get_overall_leaderboard. -/
structure OverallEntry where
  discord_id : Nat
  tm_username : String
  maps_completed : Nat
  individual_times : List (Int × Nat)
  author_medals : Nat
deriving DecidableEq

/-- The author-medal loop of get_overall_leaderboard: the number of
submitted maps whose time is at most that map's author time (maps with no
author time count zero). -/
def countAuthorMedals (author_times : List (Int × Nat)) (times : List (Int × Nat)) :
    Nat :=
  (times.filter (fun q =>
    match dictLookup author_times q.1 with
    | some ref => q.2 ≤ ref
    | none => false)).length

/-- The accumulation loop of get_overall_leaderboard: one row per player
whose inner time dict is non-empty, in dict iteration order. -/
def overallEntries (st : CompState) : List OverallEntry :=
  st.player_times.filterMap (fun p =>
    if p.2.isEmpty then none
    else some ⟨p.1, lookupName st p.1, p.2.length, p.2,
      countAuthorMedals st.author_times p.2⟩)

/-- Python str.lower() on the name, as a character list (ASCII case
mapping; the comparison below is by code points, as in Python). -/
def lowerData (s : String) : List Char := s.data.map Char.toLower

/-- The sort key lambda x: (-maps_completed, -author_medals,
tm_username.lower()) of get_overall_leaderboard, as the preorder the
lexicographic tuple comparison induces. -/
def overallLe (a b : OverallEntry) : Prop :=
  b.maps_completed < a.maps_completed ∨
    (a.maps_completed = b.maps_completed ∧
      (b.author_medals < a.author_medals ∨
        (a.author_medals = b.author_medals ∧
          lowerData a.tm_username ≤ lowerData b.tm_username)))

instance : DecidableRel overallLe := fun a b => by
  unfold overallLe; infer_instance

/-- get_overall_leaderboard: the non-empty players sorted by the multi-key
order. -/
def get_overall_leaderboard (st : CompState) : List OverallEntry :=
  List.insertionSort overallLe (overallEntries st)

/-- One row of get_overall_totals_leaderboard. -/
structure TotalsEntry where
  discord_id : Nat
  tm_username : String
  total_time : Nat
  individual_times : List (Int × Nat)
  split : Option Int
deriving DecidableEq

/-- The accumulation loop of get_overall_totals_leaderboard: one row per
player with a non-empty inner dict of size exactly 5, carrying the sum of
the stored times. -/
def totalsEntries (st : CompState) : List TotalsEntry :=
  st.player_times.filterMap (fun p =>
    if p.2.isEmpty then none
    else if p.2.length = 5 then
      some ⟨p.1, lookupName st p.1, (p.2.map (fun q => q.2)).sum, p.2, none⟩
    else none)

/-- The sort key lambda x: x['total_time'], as the preorder it induces. -/
def totalsLe (a b : TotalsEntry) : Prop := a.total_time ≤ b.total_time

instance : DecidableRel totalsLe := fun a b => Nat.decLe a.total_time b.total_time

/-- One iteration of the split loop of get_overall_totals_leaderboard
(same shape as the per-map one, over total_time). -/
def splitTotalsAgainst (first p : TotalsEntry) : TotalsEntry :=
  if p.total_time = first.total_time then { p with split := none }
  else { p with split := some ((p.total_time : Int) - (first.total_time : Int)) }

/-- The split pass of get_overall_totals_leaderboard over the sorted
rows. -/
def addTotalsSplits (l : List TotalsEntry) : List TotalsEntry :=
  match l with
  | [] => []
  | first :: _ => l.map (splitTotalsAgainst first)

/-- get_overall_totals_leaderboard: players with all five maps, sorted
ascending by total time, with the split pass applied. -/
def get_overall_totals_leaderboard (st : CompState) : List TotalsEntry :=
  addTotalsSplits (List.insertionSort totalsLe (totalsEntries st))

/-! ## Competition store: week reset (src/main.py lines 270-276, 306-310) -/

/-- reset_week: clear the time and author-time dicts, keep the player
names, and store the freshly computed week key (the code's internal call
to get_current_week() is the fresh_week parameter). -/
def reset_week (st : CompState) (fresh_week : String) : CompState :=
  { st with current_week := fresh_week, player_times := [], author_times := [] }

/-- weekly_reset_check: compare a freshly computed week key against the
stored one and reset exactly when they differ.  The Discord-channel lookup
and announcement embed of handle_week_reset are external chat-platform
collaborators and are not modelled (the channel is taken as available). -/
def weekly_reset_check (st : CompState) (fresh_week : String) : CompState :=
  if fresh_week ≠ st.current_week then reset_week st fresh_week else st

/-! ## Claim-side predicates and example states -/

/-- The (id, name, time) content of a map-leaderboard row, without the
split annotation. -/
def stripSplit (e : MapEntry) : Nat × String × Nat :=
  (e.discord_id, e.tm_username, e.time)

/-- The (id, name, total) content of a totals-leaderboard row, without the
split annotation. -/
def stripTotalsSplit (e : TotalsEntry) : Nat × String × Nat :=
  (e.discord_id, e.tm_username, e.total_time)

/-- The split convention the spec claims for a map leaderboard: the first
row has no split and every later row, a row tied with the first included,
carries its difference from the first row's time. -/
def claimSplitsMap (l : List MapEntry) : Prop :=
  match l with
  | [] => True
  | first :: rest =>
    first.split = none ∧
      ∀ e ∈ rest, e.split = some ((e.time : Int) - (first.time : Int))

/-- The split convention the code implements for a map leaderboard: every
row tied with the first row's time has no split, every strictly slower row
carries its difference from the first row's time. -/
def splitConventionMap (l : List MapEntry) : Prop :=
  match l with
  | [] => True
  | first :: _ =>
    ∀ e ∈ l,
      (e.time = first.time → e.split = none) ∧
        (e.time ≠ first.time → e.split = some ((e.time : Int) - (first.time : Int)))

/-- The split convention the spec claims for the totals leaderboard. -/
def claimSplitsTotals (l : List TotalsEntry) : Prop :=
  match l with
  | [] => True
  | first :: rest =>
    first.split = none ∧
      ∀ e ∈ rest, e.split = some ((e.total_time : Int) - (first.total_time : Int))

/-- The split convention the code implements for the totals leaderboard. -/
def splitConventionTotals (l : List TotalsEntry) : Prop :=
  match l with
  | [] => True
  | first :: _ =>
    ∀ e ∈ l,
      (e.total_time = first.total_time → e.split = none) ∧
        (e.total_time ≠ first.total_time →
          e.split = some ((e.total_time : Int) - (first.total_time : Int)))

/-- The stored time of a player on a map: the (player, map) slot of the
nested player_times dict. -/
def storedTime (st : CompState) (discord_id : Nat) (map_num : Int) : Option Nat :=
  dictLookup ((dictLookup st.player_times discord_id).getD []) map_num

/-- The dict shape every reachable state has: the outer player_times dict
and each inner per-player dict bind each key at most once (so at most one
time entry exists per (player, map)). -/
def dictsWellFormed (st : CompState) : Prop :=
  (st.player_times.map Prod.fst).Nodup ∧
    ∀ p ∈ st.player_times, (p.2.map Prod.fst).Nodup

/-- The inner-dict shape every reachable state has: per-player time dicts
bind each map number at most once and only map numbers 1..5 (add_time
rejects the rest). -/
def timesWellFormed (st : CompState) : Prop :=
  ∀ p ∈ st.player_times,
    (p.2.map Prod.fst).Nodup ∧ ∀ q ∈ p.2, inMapRange q.1 = true

/-- A player's inner dict covers all five maps. -/
def hasAllFiveMaps (times : List (Int × Nat)) : Prop :=
  ∀ m ∈ ([1, 2, 3, 4, 5] : List Int), dictMem times m = true

/-- A two-player state with an exact tie on map 1 (the counterexample
input for the claimed map-leaderboard split convention). -/
def tieState : CompState :=
  { current_week := "2026-01-04",
    player_names := [(1, "alice"), (2, "bob")],
    player_times := [(1, [(1, 50000)]), (2, [(1, 50000)])],
    author_times := [] }

/-- A two-player state where both players completed all five maps with the
same total (the counterexample input for the claimed totals split
convention). -/
def totalsTieState : CompState :=
  { current_week := "2026-01-04",
    player_names := [(1, "alice"), (2, "bob")],
    player_times :=
      [(1, [(1, 60000), (2, 60000), (3, 60000), (4, 60000), (5, 60000)]),
       (2, [(1, 60000), (2, 60000), (3, 60000), (4, 60000), (5, 60000)])],
    author_times := [] }

/-- A three-player state exercising the overall leaderboard's tie-breaks:
all three completed one map, two share the author-medal count and differ
only by display name case. -/
def overallExampleState : CompState :=
  { current_week := "2026-01-04",
    player_names := [(1, "alice"), (2, "bob"), (3, "Carl")],
    player_times := [(1, [(1, 60000)]), (2, [(1, 50000)]), (3, [(1, 52000)])],
    author_times := [(1, 52000)] }

/-! ## Order instances for the three sort keys -/

instance : IsTotal MapEntry timeLe :=
  ⟨fun a b => Nat.le_total a.time b.time⟩

instance : IsTrans MapEntry timeLe :=
  ⟨fun _ _ _ hab hbc => Nat.le_trans hab hbc⟩

instance : IsTotal TotalsEntry totalsLe :=
  ⟨fun a b => Nat.le_total a.total_time b.total_time⟩

instance : IsTrans TotalsEntry totalsLe :=
  ⟨fun _ _ _ hab hbc => Nat.le_trans hab hbc⟩

instance : IsTotal OverallEntry overallLe := by
  constructor
  intro a b
  unfold overallLe
  rcases Nat.lt_trichotomy a.maps_completed b.maps_completed with h | h | h
  · exact Or.inr (Or.inl h)
  · rcases Nat.lt_trichotomy a.author_medals b.author_medals with h2 | h2 | h2
    · exact Or.inr (Or.inr ⟨h.symm, Or.inl h2⟩)
    · rcases le_total (lowerData a.tm_username) (lowerData b.tm_username) with h3 | h3
      · exact Or.inl (Or.inr ⟨h, Or.inr ⟨h2, h3⟩⟩)
      · exact Or.inr (Or.inr ⟨h.symm, Or.inr ⟨h2.symm, h3⟩⟩)
    · exact Or.inl (Or.inr ⟨h, Or.inl h2⟩)
  · exact Or.inl (Or.inl h)

instance : IsTrans OverallEntry overallLe := by
  constructor
  intro a b c hab hbc
  unfold overallLe at *
  rcases hab with hab | ⟨habm, hab2⟩
  · rcases hbc with hbc | ⟨hbcm, -⟩
    · exact Or.inl (Nat.lt_trans hbc hab)
    · exact Or.inl (by omega)
  · rcases hbc with hbc | ⟨hbcm, hbc2⟩
    · exact Or.inl (by omega)
    · refine Or.inr ⟨habm.trans hbcm, ?_⟩
      rcases hab2 with hab2 | ⟨habd, hab3⟩
      · rcases hbc2 with hbc2 | ⟨hbcd, -⟩
        · exact Or.inl (Nat.lt_trans hbc2 hab2)
        · exact Or.inl (by omega)
      · rcases hbc2 with hbc2 | ⟨hbcd, hbc3⟩
        · exact Or.inl (by omega)
        · exact Or.inr ⟨habd.trans hbcd, hab3.trans hbc3⟩

/-! ## Lemmas: characters and preprocessing -/

lemma isDigit_not_whitespace (c : Char) (h : c.isDigit = true) :
    c.isWhitespace = false := by
  by_contra hw
  rw [Bool.not_eq_false] at hw
  simp only [Char.isWhitespace, Bool.or_eq_true, decide_eq_true_eq] at hw
  rcases hw with ((rfl | rfl) | rfl) | rfl <;> exact absurd h (by decide)

lemma isDigit_not_comma (c : Char) (h : c.isDigit = true) : c ≠ ',' := by
  rintro rfl
  exact absurd h (by decide)

lemma dropWhile_eq_self {α : Type} {p : α → Bool} (l : List α)
    (h : ∀ c ∈ l, p c = false) : l.dropWhile p = l := by
  cases l with
  | nil => rfl
  | cons a l => rw [List.dropWhile_cons, h a (by simp)]; simp

lemma stripChars_eq_self (s : List Char) (h : ∀ c ∈ s, c.isWhitespace = false) :
    stripChars s = s := by
  unfold stripChars
  rw [dropWhile_eq_self s h,
    dropWhile_eq_self s.reverse (fun c hc => h c (List.mem_reverse.1 hc)),
    List.reverse_reverse]

lemma normalizeCommas_eq_self (s : List Char) (h : ∀ c ∈ s, c ≠ ',') :
    normalizeCommas s = s := by
  unfold normalizeCommas
  rw [List.map_congr_left (g := id) (fun c hc => by
    simp only [id]
    rw [if_neg (h c hc)]), List.map_id]

lemma preprocess_clean (s : List Char)
    (h : ∀ c ∈ s, c.isDigit = true ∨ c = ':' ∨ c = '.') :
    normalizeCommas (stripChars s) = s := by
  rw [stripChars_eq_self s (fun c hc => by
      rcases h c hc with hd | rfl | rfl
      · exact isDigit_not_whitespace c hd
      · decide
      · decide),
    normalizeCommas_eq_self s (fun c hc => by
      rcases h c hc with hd | rfl | rfl
      · exact isDigit_not_comma c hd
      · decide
      · decide)]

lemma takeWhile_append_stop {α : Type} {p : α → Bool} :
    ∀ (ds : List α) (x : α) (rest : List α), (∀ c ∈ ds, p c = true) → p x = false →
      (ds ++ x :: rest).takeWhile p = ds ∧ (ds ++ x :: rest).dropWhile p = x :: rest := by
  intro ds
  induction ds with
  | nil =>
    intro x rest _ hx
    constructor
    · simp [List.takeWhile_cons, hx]
    · simp [List.dropWhile_cons, hx]
  | cons d ds ih =>
    intro x rest hmem hx
    have hd : p d = true := hmem d (by simp)
    have := ih x rest (fun c hc => hmem c (by simp [hc])) hx
    constructor
    · simp only [List.cons_append, List.takeWhile_cons, hd, if_pos]
      rw [this.1]
    · simp only [List.cons_append, List.dropWhile_cons, hd, if_pos]
      exact this.2

lemma takeWhile_all {α : Type} {p : α → Bool} :
    ∀ (ds : List α), (∀ c ∈ ds, p c = true) →
      ds.takeWhile p = ds ∧ ds.dropWhile p = [] := by
  intro ds
  induction ds with
  | nil => intro _; exact ⟨rfl, rfl⟩
  | cons d ds ih =>
    intro hmem
    have hd : p d = true := hmem d (by simp)
    have := ih (fun c hc => hmem c (by simp [hc]))
    constructor
    · simp only [List.takeWhile_cons, hd, if_pos]
      rw [this.1]
    · simp only [List.dropWhile_cons, hd, if_pos]
      exact this.2

/-! ## Lemmas: digit-string arithmetic -/

lemma strToNat_foldl :
    ∀ (l : List Char) (a : Nat),
      l.foldl (fun a c => a * 10 + (c.toNat - 48)) a = a * 10 ^ l.length + strToNat l := by
  intro l
  induction l with
  | nil => intro a; simp [strToNat]
  | cons c l ih =>
    intro a
    simp only [List.foldl_cons, List.length_cons, strToNat] at *
    rw [ih (a * 10 + (c.toNat - 48)), ih (0 * 10 + (c.toNat - 48))]
    ring

lemma strToNat_append (ds es : List Char) :
    strToNat (ds ++ es) = strToNat ds * 10 ^ es.length + strToNat es := by
  unfold strToNat
  rw [List.foldl_append]
  exact strToNat_foldl es _

lemma strToNat_replicate_zero : ∀ k : Nat, strToNat (List.replicate k '0') = 0 := by
  intro k
  induction k with
  | zero => rfl
  | succ k ih => simpa [List.replicate_succ, strToNat, List.foldl_cons] using ih

lemma strToNat_zfill (w : Nat) (ds : List Char) :
    strToNat (zfill w ds) = strToNat ds := by
  unfold zfill
  rw [strToNat_append, strToNat_replicate_zero]
  simp

lemma strToNat_ljust3 (ds : List Char) (h : ds.length ≤ 3) :
    strToNat (ljust3 ds) = strToNat ds * 10 ^ (3 - ds.length) := by
  unfold ljust3
  rw [List.take_of_length_le (by simp; omega), strToNat_append,
    strToNat_replicate_zero, List.length_replicate]
  simp

/-! ## Lemmas: decimal rendering -/

lemma digitChar_isDigit (d : Nat) (h : d < 10) : (digitChar d).isDigit = true := by
  interval_cases d <;> decide

lemma digitChar_toNat (d : Nat) (h : d < 10) : (digitChar d).toNat = 48 + d := by
  interval_cases d <;> decide

lemma strToNat_digitChar (d : Nat) (h : d < 10) : strToNat [digitChar d] = d := by
  simp [strToNat, digitChar_toNat d h]

lemma natDigitsAux_congr :
    ∀ (f₁ : Nat) {n f₂ : Nat}, n < f₁ → n < f₂ →
      natDigitsAux f₁ n = natDigitsAux f₂ n := by
  intro f₁
  induction f₁ with
  | zero => intro n f₂ h _; omega
  | succ f ih =>
    intro n f₂ h1 h2
    cases f₂ with
    | zero => omega
    | succ g =>
      simp only [natDigitsAux]
      by_cases hn : n < 10
      · simp [hn]
      · simp only [if_neg hn]
        rw [ih (show n / 10 < f by omega) (show n / 10 < g by omega)]

lemma natDigits_unfold (n : Nat) :
    natDigits n =
      if n < 10 then [digitChar n]
      else natDigits (n / 10) ++ [digitChar (n % 10)] := by
  show natDigitsAux (n + 1) n = _
  simp only [natDigitsAux]
  by_cases hn : n < 10
  · simp [hn]
  · simp only [if_neg hn]
    unfold natDigits
    congr 1
    exact natDigitsAux_congr n (by omega) (by omega)

lemma natDigits_all_digit : ∀ n : Nat, ∀ c ∈ natDigits n, c.isDigit = true := by
  intro n
  induction n using Nat.strong_induction_on with
  | _ n ih =>
    rw [natDigits_unfold]
    by_cases hn : n < 10
    · simp only [if_pos hn]
      intro c hc
      simp only [List.mem_singleton] at hc
      subst hc
      exact digitChar_isDigit n hn
    · simp only [if_neg hn]
      intro c hc
      rcases List.mem_append.1 hc with h1 | h2
      · exact ih (n / 10) (by omega) c h1
      · simp only [List.mem_singleton] at h2
        subst h2
        exact digitChar_isDigit _ (Nat.mod_lt _ (by omega))

lemma natDigits_ne_nil (n : Nat) : natDigits n ≠ [] := by
  rw [natDigits_unfold]
  by_cases hn : n < 10 <;> simp [hn]

lemma strToNat_natDigits : ∀ n : Nat, strToNat (natDigits n) = n := by
  intro n
  induction n using Nat.strong_induction_on with
  | _ n ih =>
    rw [natDigits_unfold]
    by_cases hn : n < 10
    · simp only [if_pos hn]
      exact strToNat_digitChar n hn
    · simp only [if_neg hn]
      rw [strToNat_append, ih (n / 10) (by omega),
        strToNat_digitChar _ (Nat.mod_lt _ (by omega))]
      simp
      omega

lemma natDigits_length_le :
    ∀ (k : Nat) {n : Nat}, 0 < k → n < 10 ^ k → (natDigits n).length ≤ k := by
  intro k
  induction k with
  | zero => intro n h; omega
  | succ k ih =>
    intro n _ hn
    rw [natDigits_unfold]
    by_cases h10 : n < 10
    · simp only [if_pos h10, List.length_singleton]
      omega
    · simp only [if_neg h10, List.length_append, List.length_singleton]
      have hk0 : 0 < k := by
        rcases Nat.eq_zero_or_pos k with rfl | hk0
        · rw [pow_one] at hn; omega
        · exact hk0
      have hlt : n / 10 < 10 ^ k := by
        rw [Nat.div_lt_iff_lt_mul (by norm_num)]
        calc n < 10 ^ (k + 1) := hn
          _ = 10 ^ k * 10 := by ring
      have := ih hk0 hlt
      omega

lemma zfill_all_digit (w : Nat) (ds : List Char)
    (h : ∀ c ∈ ds, c.isDigit = true) : ∀ c ∈ zfill w ds, c.isDigit = true := by
  intro c hc
  unfold zfill at hc
  rcases List.mem_append.1 hc with h1 | h2
  · rw [List.eq_of_mem_replicate h1]; decide
  · exact h c h2

lemma zfill_ne_nil (w : Nat) (ds : List Char) (h : ds ≠ []) : zfill w ds ≠ [] := by
  unfold zfill
  intro hc
  rcases List.append_eq_nil.1 hc with ⟨-, h2⟩
  exact h h2

lemma zfill_length_of_le (w : Nat) (ds : List Char) (h : ds.length ≤ w) :
    (zfill w ds).length = w := by
  simp [zfill]
  omega

/-! ## Lemmas: the three regex matchers -/

lemma matchMinSecFrac_pos (mins secs frac : List Char) (sep : Char)
    (hm : ∀ c ∈ mins, c.isDigit = true) (hm0 : mins ≠ [])
    (hs : ∀ c ∈ secs, c.isDigit = true) (hs0 : secs ≠ []) (hs2 : secs.length ≤ 2)
    (hsepOk : sep = ':' ∨ sep = '.')
    (hf : ∀ c ∈ frac, c.isDigit = true) (hf0 : frac ≠ []) (hf3 : frac.length ≤ 3) :
    matchMinSecFrac (mins ++ ':' :: (secs ++ sep :: frac)) =
      some (strToNat mins * 60000 + strToNat secs * 1000 + strToNat (ljust3 frac)) := by
  have hsep : sep.isDigit = false := by rcases hsepOk with rfl | rfl <;> decide
  obtain ⟨ht1, hd1⟩ := takeWhile_append_stop mins ':' (secs ++ sep :: frac) hm (by decide)
  obtain ⟨ht2, hd2⟩ := takeWhile_append_stop secs sep frac hs hsep
  unfold matchMinSecFrac
  rw [hd1, ht1]
  simp only [ht2, hd2]
  rw [if_neg (by simp [List.isEmpty_iff, hm0]),
    if_neg (by
      push_neg
      constructor
      · simpa using hs0
      · omega),
    if_pos (by
      refine ⟨hsepOk, ?_, hf3, List.all_eq_true.2 hf⟩
      simp [List.isEmpty_iff, hf0])]

lemma matchMinSecFrac_long (mins secs frac : List Char) (sep : Char)
    (hm : ∀ c ∈ mins, c.isDigit = true)
    (hs : ∀ c ∈ secs, c.isDigit = true)
    (hsepOk : sep = ':' ∨ sep = '.')
    (hf3 : 4 ≤ frac.length) :
    matchMinSecFrac (mins ++ ':' :: (secs ++ sep :: frac)) = none := by
  have hsep : sep.isDigit = false := by rcases hsepOk with rfl | rfl <;> decide
  obtain ⟨ht1, hd1⟩ := takeWhile_append_stop mins ':' (secs ++ sep :: frac) hm (by decide)
  obtain ⟨ht2, hd2⟩ := takeWhile_append_stop secs sep frac hs hsep
  unfold matchMinSecFrac
  rw [hd1, ht1]
  simp only [ht2, hd2]
  by_cases hme : mins.isEmpty = true
  · rw [if_pos hme]
  · rw [if_neg hme]
    by_cases hsl : secs.length = 0 ∨ 2 < secs.length
    · rw [if_pos hsl]
    · rw [if_neg hsl, if_neg (by
        push_neg
        intro _ _
        omega)]

lemma matchMinSecFrac_dot (secs frac : List Char)
    (hs : ∀ c ∈ secs, c.isDigit = true) :
    matchMinSecFrac (secs ++ '.' :: frac) = none := by
  obtain ⟨-, hd⟩ := takeWhile_append_stop secs '.' frac hs (by decide)
  unfold matchMinSecFrac
  rw [hd]
  rfl

lemma matchSecFrac_pos (secs frac : List Char)
    (hs : ∀ c ∈ secs, c.isDigit = true) (hs0 : secs ≠ [])
    (hf : ∀ c ∈ frac, c.isDigit = true) (hf0 : frac ≠ []) (hf3 : frac.length ≤ 3) :
    matchSecFrac (secs ++ '.' :: frac) =
      some (strToNat secs * 1000 + strToNat (ljust3 frac)) := by
  obtain ⟨ht, hd⟩ := takeWhile_append_stop secs '.' frac hs (by decide)
  unfold matchSecFrac
  rw [hd, ht]
  show (if secs.isEmpty then none
    else if ¬frac.isEmpty ∧ frac.length ≤ 3 ∧ frac.all Char.isDigit then
      some (strToNat secs * 1000 + strToNat (ljust3 frac))
    else none) = some (strToNat secs * 1000 + strToNat (ljust3 frac))
  rw [if_neg (by simp [List.isEmpty_iff, hs0]),
    if_pos (by
      refine ⟨?_, hf3, List.all_eq_true.2 hf⟩
      simp [List.isEmpty_iff, hf0])]

lemma matchSecFrac_long (secs frac : List Char)
    (hs : ∀ c ∈ secs, c.isDigit = true)
    (hf3 : 4 ≤ frac.length) :
    matchSecFrac (secs ++ '.' :: frac) = none := by
  obtain ⟨ht, hd⟩ := takeWhile_append_stop secs '.' frac hs (by decide)
  unfold matchSecFrac
  rw [hd, ht]
  show (if secs.isEmpty then none
    else if ¬frac.isEmpty ∧ frac.length ≤ 3 ∧ frac.all Char.isDigit then
      some (strToNat secs * 1000 + strToNat (ljust3 frac))
    else none) = none
  by_cases hse : secs.isEmpty = true
  · rw [if_pos hse]
  · rw [if_neg hse, if_neg (by
      push_neg
      intro _
      omega)]

lemma matchSecFrac_colon (mins rest : List Char)
    (hm : ∀ c ∈ mins, c.isDigit = true) :
    matchSecFrac (mins ++ ':' :: rest) = none := by
  obtain ⟨-, hd⟩ := takeWhile_append_stop mins ':' rest hm (by decide)
  unfold matchSecFrac
  rw [hd]
  rfl

lemma matchBareMs_none (s : List Char) (c : Char) (hc : c ∈ s)
    (hcd : c.isDigit = false) : matchBareMs s = none := by
  unfold matchBareMs
  rw [if_neg (by
    rintro ⟨-, hall⟩
    rw [List.all_eq_true.1 hall c hc] at hcd
    cases hcd)]

/-! ## Lemmas: characters of matched strings -/

lemma matchMinSecFrac_chars (s : List Char) (v : Nat)
    (h : matchMinSecFrac s = some v) :
    ∀ c ∈ s, c.isDigit = true ∨ c = ':' ∨ c = '.' := by
  intro c hc
  simp only [matchMinSecFrac] at h
  split at h
  · rename_i rest2 heq
    by_cases h1 : (s.takeWhile Char.isDigit).isEmpty = true
    · rw [if_pos h1] at h
      exact Option.noConfusion h
    · rw [if_neg h1] at h
      by_cases h2 : (rest2.takeWhile Char.isDigit).length = 0 ∨
          2 < (rest2.takeWhile Char.isDigit).length
      · rw [if_pos h2] at h
        exact Option.noConfusion h
      · rw [if_neg h2] at h
        rcases hdd2 : rest2.dropWhile Char.isDigit with - | ⟨sep, frac⟩
        · rw [hdd2] at h
          exact Option.noConfusion h
        · rw [hdd2] at h
          replace h :
              (if (sep = ':' ∨ sep = '.') ∧ ¬frac.isEmpty ∧ frac.length ≤ 3 ∧
                  frac.all Char.isDigit then
                some (strToNat (s.takeWhile Char.isDigit) * 60000 +
                  strToNat (rest2.takeWhile Char.isDigit) * 1000 +
                  strToNat (ljust3 frac))
              else none) = some v := h
          by_cases h3 : (sep = ':' ∨ sep = '.') ∧ ¬frac.isEmpty = true ∧
              frac.length ≤ 3 ∧ frac.all Char.isDigit = true
          · have hs2 : s = s.takeWhile Char.isDigit ++ ':' :: rest2 := by
              conv_lhs => rw [← List.takeWhile_append_dropWhile Char.isDigit s]
              rw [heq]
            have hr2 : rest2 = rest2.takeWhile Char.isDigit ++ sep :: frac := by
              conv_lhs => rw [← List.takeWhile_append_dropWhile Char.isDigit rest2]
              rw [hdd2]
            rw [hs2] at hc
            rcases List.mem_append.1 hc with hc1 | hc1
            · exact Or.inl (List.mem_takeWhile_imp hc1)
            · rcases List.mem_cons.1 hc1 with rfl | hc2
              · exact Or.inr (Or.inl rfl)
              · rw [hr2] at hc2
                rcases List.mem_append.1 hc2 with hc3 | hc3
                · exact Or.inl (List.mem_takeWhile_imp hc3)
                · rcases List.mem_cons.1 hc3 with rfl | hc4
                  · rcases h3.1 with rfl | rfl
                    · exact Or.inr (Or.inl rfl)
                    · exact Or.inr (Or.inr rfl)
                  · exact Or.inl (List.all_eq_true.1 h3.2.2.2 c hc4)
          · rw [if_neg h3] at h
            exact Option.noConfusion h
  · exact Option.noConfusion h

lemma matchSecFrac_chars (s : List Char) (v : Nat)
    (h : matchSecFrac s = some v) :
    ∀ c ∈ s, c.isDigit = true ∨ c = ':' ∨ c = '.' := by
  intro c hc
  simp only [matchSecFrac] at h
  split at h
  · rename_i frac heq
    by_cases h1 : (s.takeWhile Char.isDigit).isEmpty = true
    · rw [if_pos h1] at h
      exact Option.noConfusion h
    · rw [if_neg h1] at h
      by_cases h2 : ¬frac.isEmpty = true ∧ frac.length ≤ 3 ∧
          frac.all Char.isDigit = true
      · have hs2 : s = s.takeWhile Char.isDigit ++ '.' :: frac := by
          conv_lhs => rw [← List.takeWhile_append_dropWhile Char.isDigit s]
          rw [heq]
        rw [hs2] at hc
        rcases List.mem_append.1 hc with hc1 | hc1
        · exact Or.inl (List.mem_takeWhile_imp hc1)
        · rcases List.mem_cons.1 hc1 with rfl | hc2
          · exact Or.inr (Or.inr rfl)
          · exact Or.inl (List.all_eq_true.1 h2.2.2 c hc2)
      · rw [if_neg h2] at h
        exact Option.noConfusion h
  · exact Option.noConfusion h

lemma matchBareMs_chars (s : List Char) (v : Nat)
    (h : matchBareMs s = some v) :
    ∀ c ∈ s, c.isDigit = true ∨ c = ':' ∨ c = '.' := by
  intro c hc
  unfold matchBareMs at h
  by_cases h1 : ¬s.isEmpty = true ∧ s.all Char.isDigit = true
  · exact Or.inl (List.all_eq_true.1 h1.2 c hc)
  · rw [if_neg h1] at h
    exact Option.noConfusion h

/-! ## Lemmas: parse_time assembly -/

lemma parse_time_eq_matchers (s : List Char) :
    parse_time s =
      match matchMinSecFrac (normalizeCommas (stripChars s)) with
      | some v => some v
      | none =>
        match matchSecFrac (normalizeCommas (stripChars s)) with
        | some v => some v
        | none => matchBareMs (normalizeCommas (stripChars s)) := rfl

lemma parse_time_some_first (s : List Char) (v : Nat)
    (h : matchMinSecFrac (normalizeCommas (stripChars s)) = some v) :
    parse_time s = some v := by
  rw [parse_time_eq_matchers s, h]

lemma parse_time_some_second (s : List Char) (v : Nat)
    (h1 : matchMinSecFrac (normalizeCommas (stripChars s)) = none)
    (h2 : matchSecFrac (normalizeCommas (stripChars s)) = some v) :
    parse_time s = some v := by
  rw [parse_time_eq_matchers s, h1]
  show (match matchSecFrac (normalizeCommas (stripChars s)) with
    | some v => some v
    | none => matchBareMs (normalizeCommas (stripChars s))) = some v
  rw [h2]

lemma parse_time_none_parts (s : List Char)
    (h1 : matchMinSecFrac (normalizeCommas (stripChars s)) = none)
    (h2 : matchSecFrac (normalizeCommas (stripChars s)) = none)
    (h3 : matchBareMs (normalizeCommas (stripChars s)) = none) :
    parse_time s = none := by
  rw [parse_time_eq_matchers s, h1]
  show (match matchSecFrac (normalizeCommas (stripChars s)) with
    | some v => some v
    | none => matchBareMs (normalizeCommas (stripChars s))) = none
  rw [h2]
  exact h3

/-! ## Lemmas: parse_time on the two fraction shapes -/

lemma clean_minSecFrac (mins secs frac : List Char) (sep : Char)
    (hm : ∀ c ∈ mins, c.isDigit = true)
    (hs : ∀ c ∈ secs, c.isDigit = true)
    (hsepOk : sep = ':' ∨ sep = '.')
    (hf : ∀ c ∈ frac, c.isDigit = true) :
    normalizeCommas (stripChars (mins ++ ':' :: (secs ++ sep :: frac))) =
      mins ++ ':' :: (secs ++ sep :: frac) := by
  apply preprocess_clean
  intro c hc
  rcases List.mem_append.1 hc with h | h
  · exact Or.inl (hm c h)
  · rcases List.mem_cons.1 h with rfl | h
    · exact Or.inr (Or.inl rfl)
    · rcases List.mem_append.1 h with h | h
      · exact Or.inl (hs c h)
      · rcases List.mem_cons.1 h with rfl | h
        · rcases hsepOk with rfl | rfl
          · exact Or.inr (Or.inl rfl)
          · exact Or.inr (Or.inr rfl)
        · exact Or.inl (hf c h)

lemma clean_secFrac (secs frac : List Char)
    (hs : ∀ c ∈ secs, c.isDigit = true)
    (hf : ∀ c ∈ frac, c.isDigit = true) :
    normalizeCommas (stripChars (secs ++ '.' :: frac)) = secs ++ '.' :: frac := by
  apply preprocess_clean
  intro c hc
  rcases List.mem_append.1 hc with h | h
  · exact Or.inl (hs c h)
  · rcases List.mem_cons.1 h with rfl | h
    · exact Or.inr (Or.inr rfl)
    · exact Or.inl (hf c h)

lemma parse_time_minSecFrac (mins secs frac : List Char) (sep : Char)
    (hm : ∀ c ∈ mins, c.isDigit = true) (hm0 : mins ≠ [])
    (hs : ∀ c ∈ secs, c.isDigit = true) (hs0 : secs ≠ []) (hs2 : secs.length ≤ 2)
    (hsepOk : sep = ':' ∨ sep = '.')
    (hf : ∀ c ∈ frac, c.isDigit = true) (hf0 : frac ≠ []) (hf3 : frac.length ≤ 3) :
    parse_time (mins ++ ':' :: (secs ++ sep :: frac)) =
      some (strToNat mins * 60000 + strToNat secs * 1000 +
        strToNat frac * 10 ^ (3 - frac.length)) := by
  rw [← strToNat_ljust3 frac hf3]
  apply parse_time_some_first
  rw [clean_minSecFrac mins secs frac sep hm hs hsepOk hf]
  exact matchMinSecFrac_pos mins secs frac sep hm hm0 hs hs0 hs2 hsepOk hf hf0 hf3

lemma parse_time_minSecFrac_long (mins secs frac : List Char) (sep : Char)
    (hm : ∀ c ∈ mins, c.isDigit = true)
    (hs : ∀ c ∈ secs, c.isDigit = true)
    (hsepOk : sep = ':' ∨ sep = '.')
    (hf : ∀ c ∈ frac, c.isDigit = true) (hf4 : 4 ≤ frac.length) :
    parse_time (mins ++ ':' :: (secs ++ sep :: frac)) = none := by
  have hclean := clean_minSecFrac mins secs frac sep hm hs hsepOk hf
  apply parse_time_none_parts
  · rw [hclean]
    exact matchMinSecFrac_long mins secs frac sep hm hs hsepOk hf4
  · rw [hclean]
    exact matchSecFrac_colon mins _ hm
  · rw [hclean]
    exact matchBareMs_none _ ':' (by simp) (by decide)

lemma parse_time_secFrac (secs frac : List Char)
    (hs : ∀ c ∈ secs, c.isDigit = true) (hs0 : secs ≠ [])
    (hf : ∀ c ∈ frac, c.isDigit = true) (hf0 : frac ≠ []) (hf3 : frac.length ≤ 3) :
    parse_time (secs ++ '.' :: frac) =
      some (strToNat secs * 1000 + strToNat frac * 10 ^ (3 - frac.length)) := by
  rw [← strToNat_ljust3 frac hf3]
  have hclean := clean_secFrac secs frac hs hf
  apply parse_time_some_second
  · rw [hclean]
    exact matchMinSecFrac_dot secs frac hs
  · rw [hclean]
    exact matchSecFrac_pos secs frac hs hs0 hf hf0 hf3

lemma parse_time_secFrac_long (secs frac : List Char)
    (hs : ∀ c ∈ secs, c.isDigit = true)
    (hf : ∀ c ∈ frac, c.isDigit = true) (hf4 : 4 ≤ frac.length) :
    parse_time (secs ++ '.' :: frac) = none := by
  have hclean := clean_secFrac secs frac hs hf
  apply parse_time_none_parts
  · rw [hclean]
    exact matchMinSecFrac_dot secs frac hs
  · rw [hclean]
    exact matchSecFrac_long secs frac hs hf4
  · rw [hclean]
    exact matchBareMs_none _ '.' (by simp) (by decide)

/-! ## Lemmas: formatting round trip -/

lemma parse_time_format_time (v : Nat) :
    parse_time (format_time (v : Int)) = some v := by
  rcases Nat.eq_zero_or_pos v with rfl | hv
  · decide
  · have h0 : ¬((v : Int) ≤ 0) := by omega
    unfold format_time
    rw [if_neg h0]
    have htn : ((v : Int)).toNat = v := Int.toNat_natCast v
    rw [htn, List.append_assoc, List.cons_append]
    have hsecLen : (zfill 2 (natDigits (v % 60000 / 1000))).length = 2 :=
      zfill_length_of_le 2 _ (natDigits_length_le 2 (by norm_num)
        (by
          have h100 : (10 : Nat) ^ 2 = 100 := by norm_num
          rw [h100]
          omega))
    have hfracLen : (zfill 3 (natDigits (v % 1000))).length = 3 :=
      zfill_length_of_le 3 _ (natDigits_length_le 3 (by norm_num)
        (by
          have h1000 : (10 : Nat) ^ 3 = 1000 := by norm_num
          rw [h1000]
          omega))
    rw [parse_time_minSecFrac _ _ _ '.'
      (zfill_all_digit _ _ (natDigits_all_digit _))
      (zfill_ne_nil _ _ (natDigits_ne_nil _))
      (zfill_all_digit _ _ (natDigits_all_digit _))
      (zfill_ne_nil _ _ (natDigits_ne_nil _))
      (by omega)
      (Or.inr rfl)
      (zfill_all_digit _ _ (natDigits_all_digit _))
      (zfill_ne_nil _ _ (natDigits_ne_nil _))
      (by omega)]
    rw [strToNat_zfill, strToNat_zfill, strToNat_zfill,
      strToNat_natDigits, strToNat_natDigits, strToNat_natDigits, hfracLen]
    congr 1
    omega

/-! ## Claim theorems: time codec -/

/-- C2, counterexample: contrary to the claim, a fraction longer than 3
digits is not truncated but rejected — parse_time returns None on
1:23.4567 (claimed: 83456) and on 23.4567 (claimed: 23456), because the
regex caps the fraction group at three digits and the truncating slice is
unreachable. -/
theorem parse_time_truncation_counterexample :
    parse_time (("1:23.4567").data) = none ∧
      parse_time (("23.4567").data) = none := by
  exact ⟨by decide, by decide⟩

/-- C2, amended: for every input of the shape minutes:seconds.fraction (or
minutes:seconds:fraction, or seconds.fraction) whose fraction part is
longer than 3 digits, parse_time rejects the input (no match); for a 1- or
2-digit fraction it accepts and right-pads the fraction with zeros to
exactly 3 digits (fraction f contributes f * 10 ^ (3 - len f) ms). -/
theorem parse_time_fraction_rule :
    (∀ mins secs frac : List Char, ∀ sep : Char,
      (∀ c ∈ mins, c.isDigit = true) → mins ≠ [] →
      (∀ c ∈ secs, c.isDigit = true) → secs ≠ [] → secs.length ≤ 2 →
      (sep = ':' ∨ sep = '.') →
      (∀ c ∈ frac, c.isDigit = true) → 4 ≤ frac.length →
      parse_time (mins ++ ':' :: (secs ++ sep :: frac)) = none) ∧
    (∀ secs frac : List Char,
      (∀ c ∈ secs, c.isDigit = true) → secs ≠ [] →
      (∀ c ∈ frac, c.isDigit = true) → 4 ≤ frac.length →
      parse_time (secs ++ '.' :: frac) = none) ∧
    (∀ mins secs frac : List Char, ∀ sep : Char,
      (∀ c ∈ mins, c.isDigit = true) → mins ≠ [] →
      (∀ c ∈ secs, c.isDigit = true) → secs ≠ [] → secs.length ≤ 2 →
      (sep = ':' ∨ sep = '.') →
      (∀ c ∈ frac, c.isDigit = true) → 1 ≤ frac.length → frac.length ≤ 2 →
      parse_time (mins ++ ':' :: (secs ++ sep :: frac)) =
        some (strToNat mins * 60000 + strToNat secs * 1000 +
          strToNat frac * 10 ^ (3 - frac.length))) ∧
    (∀ secs frac : List Char,
      (∀ c ∈ secs, c.isDigit = true) → secs ≠ [] →
      (∀ c ∈ frac, c.isDigit = true) → 1 ≤ frac.length → frac.length ≤ 2 →
      parse_time (secs ++ '.' :: frac) =
        some (strToNat secs * 1000 + strToNat frac * 10 ^ (3 - frac.length))) := by
  refine ⟨?_, ?_, ?_, ?_⟩
  · intro mins secs frac sep hm _ hs _ _ hsepOk hf hf4
    exact parse_time_minSecFrac_long mins secs frac sep hm hs hsepOk hf hf4
  · intro secs frac hs _ hf hf4
    exact parse_time_secFrac_long secs frac hs hf hf4
  · intro mins secs frac sep hm hm0 hs hs0 hs2 hsepOk hf hf1 hf2
    exact parse_time_minSecFrac mins secs frac sep hm hm0 hs hs0 hs2 hsepOk hf
      (by rw [← List.length_pos]; omega) (by omega)
  · intro secs frac hs hs0 hf hf1 hf2
    exact parse_time_secFrac secs frac hs hs0 hf
      (by rw [← List.length_pos]; omega) (by omega)

theorem parse_time_fraction_rule_witness :
    parse_time (("1:23.45").data) = some 83450 ∧
      parse_time (("1:23.45678").data) = none := by
  constructor
  · exact (parse_time_fraction_rule.2.2.1 (['1']) (['2', '3']) (['4', '5']) '.'
      (by decide) (by decide) (by decide) (by decide) (by decide) (Or.inr rfl)
      (by decide) (by decide) (by decide)).trans (by decide)
  · exact parse_time_fraction_rule.1 (['1']) (['2', '3'])
      (['4', '5', '6', '7', '8']) '.'
      (by decide) (by decide) (by decide) (by decide) (by decide) (Or.inr rfl)
      (by decide) (by decide)

/-- C7: format_time is total (it always yields a string); every
non-positive input yields the literal 00:00.000, and every positive input
yields the zero-padded MM:SS.mmm rendering of minutes = ms div 60000,
seconds = (ms mod 60000) div 1000 and milliseconds = ms mod 1000. -/
theorem format_time_correct (ms : Int) :
    (ms ≤ 0 → format_time ms = ("00:00.000").data) ∧
    (0 < ms →
      format_time ms =
        zfill 2 (natDigits ((ms / 60000).toNat)) ++ ':' ::
          (zfill 2 (natDigits ((ms % 60000 / 1000).toNat)) ++ '.' ::
            zfill 3 (natDigits ((ms % 1000).toNat)))) := by
  constructor
  · intro h
    unfold format_time
    rw [if_pos h]
  · intro h
    unfold format_time
    rw [if_neg (by omega)]
    have h1 : (ms / 60000).toNat = ms.toNat / 60000 := by omega
    have h2 : (ms % 60000 / 1000).toNat = ms.toNat % 60000 / 1000 := by omega
    have h3 : (ms % 1000).toNat = ms.toNat % 1000 := by omega
    rw [h1, h2, h3, List.append_assoc, List.cons_append]

theorem format_time_correct_witness :
    format_time (-5) = ("00:00.000").data ∧
      format_time 79999 = ("01:19.999").data := by
  constructor
  · exact (format_time_correct (-5)).1 (by decide)
  · exact ((format_time_correct 79999).2 (by decide)).trans (by decide)

/-- C8: parse_time returns the distinguishable no-match result None (it is
a total function, so it never raises) on the empty string, on the negative
number -5, and on every input that still contains a character other than a
digit, a colon or a point after whitespace stripping and comma
normalisation. -/
theorem parse_time_rejects :
    parse_time ([]) = none ∧
    parse_time (("-5").data) = none ∧
    (∀ s : List Char, ∀ c : Char, c ∈ normalizeCommas (stripChars s) →
      ¬(c.isDigit = true ∨ c = ':' ∨ c = '.') → parse_time s = none) := by
  refine ⟨by decide, by decide, ?_⟩
  intro s c hc hbad
  cases h1 : matchMinSecFrac (normalizeCommas (stripChars s)) with
  | some v => exact absurd (matchMinSecFrac_chars _ v h1 c hc) hbad
  | none =>
    cases h2 : matchSecFrac (normalizeCommas (stripChars s)) with
    | some v => exact absurd (matchSecFrac_chars _ v h2 c hc) hbad
    | none =>
      cases h3 : matchBareMs (normalizeCommas (stripChars s)) with
      | some v => exact absurd (matchBareMs_chars _ v h3 c hc) hbad
      | none => exact parse_time_none_parts s h1 h2 h3

theorem parse_time_rejects_witness :
    parse_time (("1a2").data) = none :=
  parse_time_rejects.2.2 (("1a2").data) 'a' (by decide) (by decide)

/-- C9: parsing minutes:seconds.fraction (seconds at most 59, fraction 1-3
digits) yields minutes * 60000 + seconds * 1000 + the zero-right-padded
fraction; and formatting any millisecond value (in particular the value of
an already canonical MM:SS.mmm string) and re-parsing the output yields
the identical value. -/
theorem parse_format_roundtrip :
    (∀ mins secs frac : List Char,
      (∀ c ∈ mins, c.isDigit = true) → mins ≠ [] →
      (∀ c ∈ secs, c.isDigit = true) → secs ≠ [] → secs.length ≤ 2 →
      strToNat secs ≤ 59 →
      (∀ c ∈ frac, c.isDigit = true) → frac ≠ [] → frac.length ≤ 3 →
      parse_time (mins ++ ':' :: (secs ++ '.' :: frac)) =
        some (strToNat mins * 60000 + strToNat secs * 1000 +
          strToNat frac * 10 ^ (3 - frac.length))) ∧
    (∀ v : Nat, parse_time (format_time (v : Int)) = some v) := by
  constructor
  · intro mins secs frac hm hm0 hs hs0 hs2 _ hf hf0 hf3
    exact parse_time_minSecFrac mins secs frac '.' hm hm0 hs hs0 hs2
      (Or.inr rfl) hf hf0 hf3
  · exact parse_time_format_time

theorem parse_format_roundtrip_witness :
    parse_time (("2:05.5").data) = some 125500 ∧
      parse_time (format_time ((83456 : Nat) : Int)) = some 83456 := by
  constructor
  · exact (parse_format_roundtrip.1 (['2']) (['0', '5']) (['5'])
      (by decide) (by decide) (by decide) (by decide) (by decide) (by decide)
      (by decide) (by decide) (by decide)).trans (by decide)
  · exact parse_format_roundtrip.2 83456

/-- C10: parse_time does not bound the seconds group at 59 — any 1- or
2-digit seconds value is accepted and carried into the arithmetic, so
1:99.000 parses to 159000, the same value as 2:39.000. -/
theorem parse_time_seconds_unbounded :
    (∀ mins secs frac : List Char, ∀ sep : Char,
      (∀ c ∈ mins, c.isDigit = true) → mins ≠ [] →
      (∀ c ∈ secs, c.isDigit = true) → secs ≠ [] → secs.length ≤ 2 →
      (sep = ':' ∨ sep = '.') →
      (∀ c ∈ frac, c.isDigit = true) → frac ≠ [] → frac.length ≤ 3 →
      parse_time (mins ++ ':' :: (secs ++ sep :: frac)) =
        some (strToNat mins * 60000 + strToNat secs * 1000 +
          strToNat frac * 10 ^ (3 - frac.length))) ∧
    parse_time (("1:99.000").data) = some 159000 ∧
    parse_time (("2:39.000").data) = some 159000 := by
  exact ⟨parse_time_minSecFrac, by decide, by decide⟩

theorem parse_time_seconds_unbounded_witness :
    parse_time (("3:99.5").data) = some 279500 :=
  (parse_time_seconds_unbounded.1 (['3']) (['9', '9']) (['5']) '.'
    (by decide) (by decide) (by decide) (by decide) (by decide) (Or.inr rfl)
    (by decide) (by decide) (by decide)).trans (by decide)

/-! ## Lemmas: dictionaries -/

lemma dictLookup_insert_self {κ α : Type} [DecidableEq κ] :
    ∀ (l : List (κ × α)) (k : κ) (v : α),
      dictLookup (dictInsert l k v) k = some v := by
  intro l k v
  induction l with
  | nil => simp [dictInsert, dictLookup]
  | cons p rest ih =>
    obtain ⟨k', v'⟩ := p
    by_cases h : k' = k
    · subst h
      simp [dictInsert, dictLookup]
    · simp only [dictInsert, if_neg h, dictLookup]
      exact ih

lemma dictLookup_insert_ne {κ α : Type} [DecidableEq κ] :
    ∀ (l : List (κ × α)) (k k' : κ) (v : α), k' ≠ k →
      dictLookup (dictInsert l k v) k' = dictLookup l k' := by
  intro l k k' v hne
  induction l with
  | nil =>
    simp only [dictInsert, dictLookup]
    rw [if_neg (fun h => hne h.symm)]
  | cons p rest ih =>
    obtain ⟨k'', v''⟩ := p
    by_cases h : k'' = k
    · subst h
      simp only [dictInsert, if_pos rfl, dictLookup]
      rw [if_neg (fun h => hne h.symm), if_neg (fun h => hne h.symm)]
    · simp only [dictInsert, if_neg h, dictLookup]
      by_cases h2 : k'' = k'
      · rw [if_pos h2, if_pos h2]
      · rw [if_neg h2, if_neg h2]
        exact ih

lemma dictLookup_mem {κ α : Type} [DecidableEq κ] :
    ∀ {l : List (κ × α)} {k : κ} {v : α},
      dictLookup l k = some v → (k, v) ∈ l := by
  intro l
  induction l with
  | nil => intro k v h; exact Option.noConfusion h
  | cons p rest ih =>
    intro k v h
    obtain ⟨k', v'⟩ := p
    by_cases hk : k' = k
    · subst hk
      simp only [dictLookup, if_pos rfl] at h
      obtain rfl := Option.some.inj h
      exact List.mem_cons_self _ _
    · simp only [dictLookup, if_neg hk] at h
      exact List.mem_cons_of_mem _ (ih h)

lemma mem_dictInsert {κ α : Type} [DecidableEq κ] :
    ∀ {l : List (κ × α)} {k : κ} {v : α} {p : κ × α},
      p ∈ dictInsert l k v → p = (k, v) ∨ p ∈ l := by
  intro l
  induction l with
  | nil =>
    intro k v p h
    simp only [dictInsert, List.mem_singleton] at h
    exact Or.inl h
  | cons q rest ih =>
    intro k v p h
    obtain ⟨k', v'⟩ := q
    by_cases hk : k' = k
    · subst hk
      simp only [dictInsert, eq_self_iff_true, if_true, List.mem_cons] at h
      rcases h with h1 | h1
      · exact Or.inl h1
      · exact Or.inr (List.mem_cons_of_mem _ h1)
    · simp only [dictInsert, if_neg hk, List.mem_cons] at h
      rcases h with rfl | h
      · exact Or.inr (List.mem_cons_self _ _)
      · rcases ih h with h1 | h1
        · exact Or.inl h1
        · exact Or.inr (List.mem_cons_of_mem _ h1)

lemma mem_keys_dictInsert {κ α : Type} [DecidableEq κ]
    {l : List (κ × α)} {k a : κ} {v : α}
    (h : a ∈ (dictInsert l k v).map Prod.fst) :
    a = k ∨ a ∈ l.map Prod.fst := by
  rcases List.mem_map.1 h with ⟨p, hp, rfl⟩
  rcases mem_dictInsert hp with rfl | hp2
  · exact Or.inl rfl
  · exact Or.inr (List.mem_map.2 ⟨p, hp2, rfl⟩)

lemma dictInsert_keys_nodup {κ α : Type} [DecidableEq κ] :
    ∀ (l : List (κ × α)) (k : κ) (v : α),
      (l.map Prod.fst).Nodup → ((dictInsert l k v).map Prod.fst).Nodup := by
  intro l k v h
  induction l with
  | nil => simp [dictInsert]
  | cons p rest ih =>
    obtain ⟨k', v'⟩ := p
    simp only [List.map_cons, List.nodup_cons] at h
    by_cases hk : k' = k
    · subst hk
      simp only [dictInsert, if_true]
      simp only [List.map_cons, List.nodup_cons]
      exact h
    · simp only [dictInsert, if_neg hk, List.map_cons, List.nodup_cons]
      refine ⟨?_, ih h.2⟩
      intro hmem
      rcases mem_keys_dictInsert hmem with rfl | hmem2
      · exact hk rfl
      · exact h.1 hmem2

lemma dictMem_iff_keys {κ α : Type} [DecidableEq κ] :
    ∀ (l : List (κ × α)) (k : κ), dictMem l k = true ↔ k ∈ l.map Prod.fst := by
  intro l k
  induction l with
  | nil => simp [dictMem, dictLookup]
  | cons p rest ih =>
    obtain ⟨k', v'⟩ := p
    by_cases hk : k' = k
    · subst hk
      simp [dictMem, dictLookup]
    · simp only [dictMem, dictLookup, if_neg hk, List.map_cons, List.mem_cons]
      rw [show ((dictLookup rest k).isSome = true ↔ k ∈ rest.map Prod.fst) from ih]
      constructor
      · exact Or.inr
      · rintro (rfl | h)
        · exact absurd rfl hk
        · exact h

/-- The ensure-inner-dict step of add_time: after it, the player's inner
dict is exactly the previously stored one (or empty when absent). -/
lemma ensure_lookup (st : CompState) (discord_id : Nat) :
    dictLookup
      (if dictMem st.player_times discord_id then st.player_times
       else dictInsert st.player_times discord_id []) discord_id =
      some ((dictLookup st.player_times discord_id).getD []) := by
  by_cases h : dictMem st.player_times discord_id = true
  · rw [if_pos h]
    unfold dictMem at h
    cases hl : dictLookup st.player_times discord_id with
    | none => rw [hl] at h; exact Bool.noConfusion h
    | some inner => rfl
  · rw [if_neg (by simpa using h)]
    unfold dictMem at h
    cases hl : dictLookup st.player_times discord_id with
    | none =>
      rw [dictLookup_insert_self]
      rfl
    | some inner => rw [hl] at h; simp at h

/-! ## Claim theorems: store mutations -/

/-- C5: add_time returns False exactly when the player is unregistered or
the map number is outside 1..5; a failing call leaves the state unchanged;
a successful call overwrites the (player, map) slot, changes no other slot
and no other field, and preserves the at-most-one-entry-per-(player, map)
dict shape. -/
theorem add_time_correct (st : CompState) (discord_id : Nat) (map_num : Int)
    (time_ms : Nat) :
    ((add_time st discord_id map_num time_ms).1 = false ↔
      (dictMem st.player_names discord_id = false ∨ inMapRange map_num = false)) ∧
    ((add_time st discord_id map_num time_ms).1 = false →
      (add_time st discord_id map_num time_ms).2 = st) ∧
    ((add_time st discord_id map_num time_ms).1 = true →
      ((add_time st discord_id map_num time_ms).2.current_week = st.current_week ∧
        (add_time st discord_id map_num time_ms).2.player_names = st.player_names ∧
        (add_time st discord_id map_num time_ms).2.author_times = st.author_times) ∧
      storedTime (add_time st discord_id map_num time_ms).2 discord_id map_num =
        some time_ms ∧
      (∀ id' m', id' ≠ discord_id ∨ m' ≠ map_num →
        storedTime (add_time st discord_id map_num time_ms).2 id' m' =
          storedTime st id' m') ∧
      (dictsWellFormed st →
        dictsWellFormed (add_time st discord_id map_num time_ms).2)) := by
  by_cases hA : dictMem st.player_names discord_id = true
  case neg =>
    have hr : add_time st discord_id map_num time_ms = (false, st) := by
      unfold add_time
      rw [if_pos hA]
    rw [hr]
    refine ⟨?_, ?_, ?_⟩
    · exact ⟨fun _ => Or.inl (by rwa [Bool.not_eq_true] at hA), fun _ => rfl⟩
    · intro _
      rfl
    · intro h
      exact Bool.noConfusion h
  case pos =>
    by_cases hB : inMapRange map_num = true
    case neg =>
      have hr : add_time st discord_id map_num time_ms = (false, st) := by
        unfold add_time
        rw [if_neg (by simp [hA]), if_pos hB]
      rw [hr]
      refine ⟨?_, ?_, ?_⟩
      · exact ⟨fun _ => Or.inr (by rwa [Bool.not_eq_true] at hB), fun _ => rfl⟩
      · intro _
        rfl
      · intro h
        exact Bool.noConfusion h
    case pos =>
      have hr : add_time st discord_id map_num time_ms =
          (true,
            { st with
              player_times :=
                dictInsert
                  (if dictMem st.player_times discord_id then st.player_times
                   else dictInsert st.player_times discord_id [])
                  discord_id
                  (dictInsert
                    ((dictLookup
                      (if dictMem st.player_times discord_id then st.player_times
                       else dictInsert st.player_times discord_id [])
                      discord_id).getD [])
                    map_num time_ms) }) := by
        unfold add_time
        rw [if_neg (by simp [hA]), if_neg (by simp [hB])]
      rw [hr]
      refine ⟨?_, ?_, fun _ => ⟨⟨rfl, rfl, rfl⟩, ?_, ?_, ?_⟩⟩
      · constructor
        · intro h
          exact Bool.noConfusion h
        · rintro (h | h)
          · rw [h] at hA
            exact Bool.noConfusion hA
          · rw [h] at hB
            exact Bool.noConfusion hB
      · intro h
        exact Bool.noConfusion h
      · unfold storedTime
        simp only [dictLookup_insert_self, Option.getD_some]
      · intro id' m' hne
        by_cases hid : id' = discord_id
        · subst hid
          have hm' : m' ≠ map_num := by
            rcases hne with h | h
            · exact absurd rfl h
            · exact h
          unfold storedTime
          simp only [dictLookup_insert_self, Option.getD_some]
          rw [dictLookup_insert_ne _ _ _ _ hm', ensure_lookup]
          rfl
        · unfold storedTime
          simp only
          rw [dictLookup_insert_ne _ _ _ _ hid]
          by_cases hmem : dictMem st.player_times id'
          · by_cases hmem2 : dictMem st.player_times discord_id = true
            · rw [if_pos hmem2]
            · rw [if_neg (by simpa using hmem2),
                dictLookup_insert_ne _ _ _ _ hid]
          · by_cases hmem2 : dictMem st.player_times discord_id = true
            · rw [if_pos hmem2]
            · rw [if_neg (by simpa using hmem2),
                dictLookup_insert_ne _ _ _ _ hid]
      · rintro ⟨houter, hinner⟩
        have htimes0 :
            ((if dictMem st.player_times discord_id then st.player_times
              else dictInsert st.player_times discord_id []).map Prod.fst).Nodup := by
          by_cases hmem : dictMem st.player_times discord_id = true
          · rwa [if_pos hmem]
          · rw [if_neg (by simpa using hmem)]
            exact dictInsert_keys_nodup _ _ _ houter
        constructor
        · exact dictInsert_keys_nodup _ _ _ htimes0
        · intro p hp
          rcases mem_dictInsert hp with rfl | hp2
          · simp only
            apply dictInsert_keys_nodup
            rw [ensure_lookup]
            cases hlk : dictLookup st.player_times discord_id with
            | none => simp
            | some inner0 =>
              simp only [Option.getD_some]
              exact hinner _ (dictLookup_mem hlk)
          · by_cases hmem : dictMem st.player_times discord_id = true
            · rw [if_pos hmem] at hp2
              exact hinner p hp2
            · rw [if_neg (by simpa using hmem)] at hp2
              rcases mem_dictInsert hp2 with rfl | hp3
              · simp
              · exact hinner p hp3

theorem add_time_correct_witness :
    (add_time overallExampleState 4 1 70000).1 = false ∧
    storedTime (add_time overallExampleState 1 2 70000).2 1 2 = some 70000 ∧
    storedTime (add_time overallExampleState 1 2 70000).2 2 1 =
      storedTime overallExampleState 2 1 := by
  refine ⟨?_, ?_, ?_⟩
  · exact (add_time_correct overallExampleState 4 1 70000).1.2 (Or.inl (by decide))
  · exact ((add_time_correct overallExampleState 1 2 70000).2.2 (by decide)).2.1
  · exact ((add_time_correct overallExampleState 1 2 70000).2.2 (by decide)).2.2.1
      2 1 (Or.inl (by decide))

/-- C6: the weekly check compares the stored week key with a freshly
computed one; when they differ it clears the time and author-time dicts,
stores the fresh week key and keeps every display name; when they agree
the state is unchanged. -/
theorem weekly_reset_check_correct (st : CompState) (fresh_week : String) :
    (fresh_week ≠ st.current_week →
      (weekly_reset_check st fresh_week).current_week = fresh_week ∧
      (weekly_reset_check st fresh_week).player_times = [] ∧
      (weekly_reset_check st fresh_week).author_times = [] ∧
      (weekly_reset_check st fresh_week).player_names = st.player_names) ∧
    (fresh_week = st.current_week → weekly_reset_check st fresh_week = st) := by
  constructor
  · intro h
    unfold weekly_reset_check
    rw [if_pos h]
    exact ⟨rfl, rfl, rfl, rfl⟩
  · intro h
    unfold weekly_reset_check
    rw [if_neg (fun hne => hne h)]

theorem weekly_reset_check_correct_witness :
    (weekly_reset_check overallExampleState ("2026-01-11")).player_times = [] ∧
    (weekly_reset_check overallExampleState ("2026-01-11")).player_names =
      overallExampleState.player_names ∧
    weekly_reset_check overallExampleState ("2026-01-04") = overallExampleState := by
  refine ⟨?_, ?_, ?_⟩
  · exact ((weekly_reset_check_correct overallExampleState ("2026-01-11")).1
      (by decide)).2.1
  · exact ((weekly_reset_check_correct overallExampleState ("2026-01-11")).1
      (by decide)).2.2.2
  · exact (weekly_reset_check_correct overallExampleState ("2026-01-04")).2 rfl

/-! ## Lemmas: map-leaderboard split pass -/

lemma splitAgainst_time (first p : MapEntry) :
    (splitAgainst first p).time = p.time := by
  unfold splitAgainst
  split <;> rfl

lemma splitAgainst_strip (first p : MapEntry) :
    stripSplit (splitAgainst first p) = stripSplit p := by
  unfold splitAgainst stripSplit
  split <;> rfl

lemma addSplits_map_stripSplit (l : List MapEntry) :
    (addSplits l).map stripSplit = l.map stripSplit := by
  cases l with
  | nil => rfl
  | cons first rest =>
    show ((first :: rest).map (splitAgainst first)).map stripSplit = _
    rw [List.map_map]
    exact List.map_congr_left (fun a _ => splitAgainst_strip first a)

lemma addSplits_sorted (l : List MapEntry) (h : List.Sorted timeLe l) :
    List.Sorted timeLe (addSplits l) := by
  cases l with
  | nil => exact h
  | cons first rest =>
    show List.Sorted timeLe ((first :: rest).map (splitAgainst first))
    exact List.pairwise_map.mpr (h.imp (fun hab => by
      show (splitAgainst first _).time ≤ (splitAgainst first _).time
      rw [splitAgainst_time, splitAgainst_time]
      exact hab))

lemma addSplits_convention (l : List MapEntry) :
    splitConventionMap (addSplits l) := by
  cases l with
  | nil => trivial
  | cons first rest =>
    show ∀ e ∈ List.map (splitAgainst first) (first :: rest),
        (e.time = (splitAgainst first first).time → e.split = none) ∧
          (e.time ≠ (splitAgainst first first).time →
            e.split = some ((e.time : Int) - ((splitAgainst first first).time : Int)))
    intro e he
    obtain ⟨x, -, rfl⟩ := List.mem_map.1 he
    by_cases hx2 : x.time = first.time
    · constructor
      · intro _
        simp [splitAgainst, hx2]
      · intro hne
        exact absurd (by rw [splitAgainst_time, splitAgainst_time]; exact hx2) hne
    · constructor
      · intro heq
        rw [splitAgainst_time, splitAgainst_time] at heq
        exact absurd heq hx2
      · intro _
        rw [splitAgainst_time, splitAgainst_time]
        simp [splitAgainst, hx2]

/-! ## Claim theorems: map leaderboard -/

/-- C1, counterexample: on a state where two players tie exactly on map 1,
the second row of the map leaderboard carries split None, not split 0 as
the claim demands for an exact tie. -/
theorem map_leaderboard_tie_counterexample :
    ¬ claimSplitsMap (get_map_leaderboard tieState 1) := by
  intro hcl
  have h2 : get_map_leaderboard tieState 1 =
      [⟨1, ("alice"), 50000, none⟩, ⟨2, ("bob"), 50000, none⟩] := by decide
  rw [h2] at hcl
  have h3 := hcl.2 ⟨2, ("bob"), 50000, none⟩ (by simp)
  exact Option.noConfusion h3

/-- C1, amended: for every in-range map number the map leaderboard is a
permutation of the rows (player id, display name, time) that have a
recorded time for that map, it is sorted ascending by milliseconds, and
its splits follow the implemented convention: every row whose time equals
the fastest (first) row's time carries split None — an exact tie included
— and every strictly slower row carries its time minus the fastest
time. -/
theorem map_leaderboard_correct (st : CompState) (map_num : Int)
    (h : inMapRange map_num = true) :
    ((get_map_leaderboard st map_num).map stripSplit).Perm
      ((mapEntriesFor st map_num).map stripSplit) ∧
    (∀ id name t,
      (∃ e ∈ get_map_leaderboard st map_num, stripSplit e = (id, name, t)) ↔
        (∃ p ∈ st.player_times, p.1 = id ∧ lookupName st id = name ∧
          dictLookup p.2 map_num = some t)) ∧
    List.Sorted timeLe (get_map_leaderboard st map_num) ∧
    splitConventionMap (get_map_leaderboard st map_num) := by
  have hlb : get_map_leaderboard st map_num =
      addSplits (List.insertionSort timeLe (mapEntriesFor st map_num)) := by
    unfold get_map_leaderboard
    rw [if_neg (fun hc => hc h)]
  refine ⟨?_, ?_, ?_, ?_⟩
  · rw [hlb, addSplits_map_stripSplit]
    exact (List.perm_insertionSort timeLe _).map stripSplit
  · intro id name t
    constructor
    · rintro ⟨e, he, hstrip⟩
      have h1 : (id, name, t) ∈ (get_map_leaderboard st map_num).map stripSplit :=
        List.mem_map.2 ⟨e, he, hstrip⟩
      rw [hlb, addSplits_map_stripSplit] at h1
      have h2 : (id, name, t) ∈ (mapEntriesFor st map_num).map stripSplit :=
        ((List.perm_insertionSort timeLe (mapEntriesFor st map_num)).map
          stripSplit).mem_iff.1 h1
      obtain ⟨e', he', hstrip'⟩ := List.mem_map.1 h2
      obtain ⟨p, hp, hfp⟩ := List.mem_filterMap.1 he'
      cases hlk : dictLookup p.2 map_num with
      | none =>
        rw [hlk] at hfp
        exact Option.noConfusion hfp
      | some t0 =>
        rw [hlk] at hfp
        obtain rfl := Option.some.inj hfp
        unfold stripSplit at hstrip'
        simp only [Prod.mk.injEq] at hstrip'
        obtain ⟨h1', h2', h3'⟩ := hstrip'
        refine ⟨p, hp, h1', ?_, ?_⟩
        · rw [← h1']
          exact h2'
        · rw [hlk, h3']
    · rintro ⟨p, hp, hid, hname, hlk⟩
      have he' : (⟨p.1, lookupName st p.1, t, none⟩ : MapEntry) ∈
          mapEntriesFor st map_num :=
        List.mem_filterMap.2 ⟨p, hp, by rw [hlk]⟩
      have h1 : (id, name, t) ∈ (mapEntriesFor st map_num).map stripSplit :=
        List.mem_map.2 ⟨_, he', by
          unfold stripSplit
          rw [hid, hname]⟩
      have h2 : (id, name, t) ∈
          (List.insertionSort timeLe (mapEntriesFor st map_num)).map stripSplit :=
        ((List.perm_insertionSort timeLe _).map stripSplit).mem_iff.2 h1
      have h3 : (id, name, t) ∈ (get_map_leaderboard st map_num).map stripSplit := by
        rw [hlb, addSplits_map_stripSplit]
        exact h2
      exact List.mem_map.1 h3
  · rw [hlb]
    exact addSplits_sorted _ (List.sorted_insertionSort timeLe _)
  · rw [hlb]
    exact addSplits_convention _

theorem map_leaderboard_correct_witness :
    List.Sorted timeLe (get_map_leaderboard overallExampleState 1) ∧
    splitConventionMap (get_map_leaderboard overallExampleState 1) ∧
    (∃ e ∈ get_map_leaderboard overallExampleState 1,
      stripSplit e = (2, ("bob"), 50000)) := by
  refine ⟨?_, ?_, ?_⟩
  · exact (map_leaderboard_correct overallExampleState 1 (by decide)).2.2.1
  · exact (map_leaderboard_correct overallExampleState 1 (by decide)).2.2.2
  · exact ((map_leaderboard_correct overallExampleState 1 (by decide)).2.1
      2 ("bob") 50000).2 ⟨(2, [(1, 50000)]), by decide, rfl, rfl, by decide⟩

/-! ## Claim theorems: overall leaderboard -/

/-- C4: the overall leaderboard is a permutation of the rows built for
every player with at least one recorded time; each row's author-medal
count is the number of submitted maps whose time is at most that map's
reference time (maps with no reference time contribute nothing); the rows
are sorted by maps completed descending, then author medals descending,
then lowercased display name ascending — in particular two rows with equal
maps completed and equal author medals appear in ascending order of their
lowercased names. -/
theorem overall_leaderboard_correct (st : CompState) :
    (get_overall_leaderboard st).Perm (overallEntries st) ∧
    (∀ e ∈ get_overall_leaderboard st,
      ∃ p ∈ st.player_times, p.2 ≠ [] ∧ p.1 = e.discord_id ∧
        e.tm_username = lookupName st p.1 ∧
        e.maps_completed = p.2.length ∧ e.individual_times = p.2 ∧
        e.author_medals = countAuthorMedals st.author_times p.2) ∧
    (∀ p ∈ st.player_times, p.2 ≠ [] →
      ∃ e ∈ get_overall_leaderboard st, e.discord_id = p.1 ∧
        e.individual_times = p.2 ∧
        e.author_medals = countAuthorMedals st.author_times p.2) ∧
    List.Sorted overallLe (get_overall_leaderboard st) ∧
    List.Pairwise (fun a b =>
      a.maps_completed = b.maps_completed → a.author_medals = b.author_medals →
        lowerData a.tm_username ≤ lowerData b.tm_username)
      (get_overall_leaderboard st) := by
  have hperm : (get_overall_leaderboard st).Perm (overallEntries st) :=
    List.perm_insertionSort overallLe _
  refine ⟨hperm, ?_, ?_, ?_, ?_⟩
  · intro e he
    have he2 : e ∈ overallEntries st := hperm.mem_iff.1 he
    obtain ⟨p, hp, hfp⟩ := List.mem_filterMap.1 he2
    by_cases hemp : p.2.isEmpty = true
    · rw [if_pos hemp] at hfp
      exact Option.noConfusion hfp
    · rw [if_neg hemp] at hfp
      obtain rfl := Option.some.inj hfp
      exact ⟨p, hp, by simpa [List.isEmpty_iff] using hemp, rfl, rfl, rfl, rfl, rfl⟩
  · intro p hp hne
    have he2 : (⟨p.1, lookupName st p.1, p.2.length, p.2,
        countAuthorMedals st.author_times p.2⟩ : OverallEntry) ∈ overallEntries st :=
      List.mem_filterMap.2 ⟨p, hp, by
        rw [if_neg (by simpa [List.isEmpty_iff] using hne)]⟩
    exact ⟨_, hperm.mem_iff.2 he2, rfl, rfl, rfl⟩
  · exact List.sorted_insertionSort overallLe _
  · refine (List.sorted_insertionSort overallLe (overallEntries st)).imp ?_
    intro a b hab
    intro hm hmed
    rcases hab with h1 | ⟨-, h2⟩
    · exact absurd h1 (by omega)
    · rcases h2 with h2 | ⟨-, h3⟩
      · exact absurd h2 (by omega)
      · exact h3

theorem overall_leaderboard_correct_witness :
    List.Sorted overallLe (get_overall_leaderboard overallExampleState) ∧
    (∃ e ∈ get_overall_leaderboard overallExampleState,
      e.discord_id = 2 ∧ e.individual_times = [(1, 50000)] ∧
        e.author_medals =
          countAuthorMedals overallExampleState.author_times [(1, 50000)]) := by
  constructor
  · exact (overall_leaderboard_correct overallExampleState).2.2.2.1
  · exact (overall_leaderboard_correct overallExampleState).2.2.1
      (2, [(1, 50000)]) (by decide) (by decide)

/-! ## Lemmas: totals leaderboard -/

lemma inMapRange_mem (m : Int) :
    inMapRange m = true ↔ m ∈ ([1, 2, 3, 4, 5] : List Int) := by
  simp [inMapRange]
  omega

lemma length_five_iff (times : List (Int × Nat))
    (hnd : (times.map Prod.fst).Nodup)
    (hrange : ∀ q ∈ times, inMapRange q.1 = true) :
    times.length = 5 ↔ hasAllFiveMaps times := by
  have hkeys : ∀ k ∈ times.map Prod.fst, k ∈ ([1, 2, 3, 4, 5] : List Int) := by
    intro k hk
    obtain ⟨q, hq, rfl⟩ := List.mem_map.1 hk
    exact (inMapRange_mem q.1).1 (hrange q hq)
  have hsub : (times.map Prod.fst).toFinset ⊆
      ([1, 2, 3, 4, 5] : List Int).toFinset := by
    intro x hx
    exact List.mem_toFinset.2 (hkeys x (List.mem_toFinset.1 hx))
  constructor
  · intro hlen
    have hcard1 : (times.map Prod.fst).toFinset.card = 5 := by
      rw [List.toFinset_card_of_nodup hnd, List.length_map, hlen]
    have hcard2 : ([1, 2, 3, 4, 5] : List Int).toFinset.card ≤
        (times.map Prod.fst).toFinset.card := by
      rw [hcard1]
      decide
    have heq := Finset.eq_of_subset_of_card_le hsub hcard2
    intro m hm
    rw [dictMem_iff_keys]
    have hmem : m ∈ (times.map Prod.fst).toFinset := by
      rw [heq]
      exact List.mem_toFinset.2 hm
    exact List.mem_toFinset.1 hmem
  · intro hall
    have hsup : ([1, 2, 3, 4, 5] : List Int).toFinset ⊆
        (times.map Prod.fst).toFinset := by
      intro x hx
      have hx2 := hall x (List.mem_toFinset.1 hx)
      rw [dictMem_iff_keys] at hx2
      exact List.mem_toFinset.2 hx2
    have heq : (times.map Prod.fst).toFinset =
        ([1, 2, 3, 4, 5] : List Int).toFinset :=
      Finset.Subset.antisymm hsub hsup
    have h5 : (times.map Prod.fst).toFinset.card = 5 := by
      rw [heq]
      decide
    rw [List.toFinset_card_of_nodup hnd, List.length_map] at h5
    exact h5

lemma splitTotalsAgainst_fields (first p : TotalsEntry) :
    (splitTotalsAgainst first p).discord_id = p.discord_id ∧
    (splitTotalsAgainst first p).tm_username = p.tm_username ∧
    (splitTotalsAgainst first p).total_time = p.total_time ∧
    (splitTotalsAgainst first p).individual_times = p.individual_times := by
  unfold splitTotalsAgainst
  split <;> exact ⟨rfl, rfl, rfl, rfl⟩

lemma addTotalsSplits_sorted (l : List TotalsEntry) (h : List.Sorted totalsLe l) :
    List.Sorted totalsLe (addTotalsSplits l) := by
  cases l with
  | nil => exact h
  | cons first rest =>
    show List.Sorted totalsLe ((first :: rest).map (splitTotalsAgainst first))
    exact List.pairwise_map.mpr (h.imp (fun hab => by
      show (splitTotalsAgainst first _).total_time ≤
        (splitTotalsAgainst first _).total_time
      rw [(splitTotalsAgainst_fields first _).2.2.1,
        (splitTotalsAgainst_fields first _).2.2.1]
      exact hab))

lemma addTotalsSplits_convention (l : List TotalsEntry) :
    splitConventionTotals (addTotalsSplits l) := by
  cases l with
  | nil => trivial
  | cons first rest =>
    show ∀ e ∈ List.map (splitTotalsAgainst first) (first :: rest),
        (e.total_time = (splitTotalsAgainst first first).total_time →
          e.split = none) ∧
          (e.total_time ≠ (splitTotalsAgainst first first).total_time →
            e.split = some ((e.total_time : Int) -
              ((splitTotalsAgainst first first).total_time : Int)))
    intro e he
    obtain ⟨x, -, rfl⟩ := List.mem_map.1 he
    have hxt := (splitTotalsAgainst_fields first x).2.2.1
    have hft := (splitTotalsAgainst_fields first first).2.2.1
    by_cases hx2 : x.total_time = first.total_time
    · constructor
      · intro _
        simp [splitTotalsAgainst, hx2]
      · intro hne
        exact absurd (by rw [hxt, hft]; exact hx2) hne
    · constructor
      · intro heq
        rw [hxt, hft] at heq
        exact absurd heq hx2
      · intro _
        rw [hxt, hft]
        simp [splitTotalsAgainst, hx2]

/-! ## Claim theorems: totals leaderboard -/

/-- C3, counterexample: on a state where both players completed all five
maps with equal totals, the second row of the totals leaderboard carries
split None, not the claimed difference (here split 0) from the first
row. -/
theorem totals_leaderboard_tie_counterexample :
    ¬ claimSplitsTotals (get_overall_totals_leaderboard totalsTieState) := by
  intro hcl
  have h2 : get_overall_totals_leaderboard totalsTieState =
      [⟨1, ("alice"), 300000,
        [(1, 60000), (2, 60000), (3, 60000), (4, 60000), (5, 60000)], none⟩,
       ⟨2, ("bob"), 300000,
        [(1, 60000), (2, 60000), (3, 60000), (4, 60000), (5, 60000)], none⟩] := by
    decide
  rw [h2] at hcl
  have h3 := hcl.2
    ⟨2, ("bob"), 300000,
      [(1, 60000), (2, 60000), (3, 60000), (4, 60000), (5, 60000)], none⟩
    (by simp)
  exact Option.noConfusion h3

/-- C3, amended: on any state whose inner time dicts are well formed (each
map bound once, map numbers in 1..5 — the shape add_time maintains), the
totals leaderboard contains exactly one row per player who has a time for
all five maps, carrying the sum of the five stored times, sorted ascending
by total; the splits follow the implemented convention (rows tied with the
fastest total carry None — an exact tie included — and strictly slower
rows carry their difference), and the result is empty when no player
completed all five maps. -/
theorem totals_leaderboard_correct (st : CompState) (hwf : timesWellFormed st) :
    (∀ e ∈ get_overall_totals_leaderboard st,
      ∃ p ∈ st.player_times, p.1 = e.discord_id ∧
        e.tm_username = lookupName st p.1 ∧
        e.individual_times = p.2 ∧ hasAllFiveMaps p.2 ∧
        e.total_time = (p.2.map (fun q => q.2)).sum) ∧
    (∀ p ∈ st.player_times, hasAllFiveMaps p.2 →
      ∃ e ∈ get_overall_totals_leaderboard st, e.discord_id = p.1 ∧
        e.individual_times = p.2 ∧
        e.total_time = (p.2.map (fun q => q.2)).sum) ∧
    List.Sorted totalsLe (get_overall_totals_leaderboard st) ∧
    splitConventionTotals (get_overall_totals_leaderboard st) ∧
    ((∀ p ∈ st.player_times, ¬ hasAllFiveMaps p.2) →
      get_overall_totals_leaderboard st = []) := by
  have hperm := List.perm_insertionSort totalsLe (totalsEntries st)
  refine ⟨?_, ?_, ?_, ?_, ?_⟩
  · intro e he
    unfold get_overall_totals_leaderboard at he
    cases hs : List.insertionSort totalsLe (totalsEntries st) with
    | nil =>
      rw [hs] at he
      exact absurd he (by simp [addTotalsSplits])
    | cons first rest =>
      rw [hs] at he
      obtain ⟨x, hx, rfl⟩ := List.mem_map.1 he
      have hx2 : x ∈ totalsEntries st := hperm.mem_iff.1 (by rw [hs]; exact hx)
      obtain ⟨p, hp, hfp⟩ := List.mem_filterMap.1 hx2
      by_cases h1 : p.2.isEmpty = true
      · rw [if_pos h1] at hfp
        exact Option.noConfusion hfp
      · rw [if_neg h1] at hfp
        by_cases h2 : p.2.length = 5
        · rw [if_pos h2] at hfp
          obtain rfl := Option.some.inj hfp
          obtain ⟨hf1, hf2, hf3, hf4⟩ := splitTotalsAgainst_fields first _
          refine ⟨p, hp, ?_, ?_, ?_, ?_, ?_⟩
          · rw [hf1]
          · rw [hf2]
          · rw [hf4]
          · exact (length_five_iff p.2 (hwf p hp).1 (hwf p hp).2).1 h2
          · rw [hf3]
        · rw [if_neg h2] at hfp
          exact Option.noConfusion hfp
  · intro p hp hall
    have hlen : p.2.length = 5 :=
      (length_five_iff p.2 (hwf p hp).1 (hwf p hp).2).2 hall
    have hne : ¬ p.2.isEmpty = true := by
      rw [List.isEmpty_iff]
      intro h
      rw [h] at hlen
      exact absurd hlen (by decide)
    have hx2 : (⟨p.1, lookupName st p.1, (p.2.map (fun q => q.2)).sum, p.2, none⟩ :
        TotalsEntry) ∈ totalsEntries st :=
      List.mem_filterMap.2 ⟨p, hp, by rw [if_neg hne, if_pos hlen]⟩
    have hx3 : (⟨p.1, lookupName st p.1, (p.2.map (fun q => q.2)).sum, p.2, none⟩ :
        TotalsEntry) ∈ List.insertionSort totalsLe (totalsEntries st) :=
      hperm.mem_iff.2 hx2
    unfold get_overall_totals_leaderboard
    cases hs : List.insertionSort totalsLe (totalsEntries st) with
    | nil =>
      rw [hs] at hx3
      exact absurd hx3 (by simp)
    | cons first rest =>
      rw [hs] at hx3
      refine ⟨splitTotalsAgainst first
        ⟨p.1, lookupName st p.1, (p.2.map (fun q => q.2)).sum, p.2, none⟩,
        List.mem_map.2 ⟨_, hx3, rfl⟩, ?_, ?_, ?_⟩
      · rw [(splitTotalsAgainst_fields first _).1]
      · rw [(splitTotalsAgainst_fields first _).2.2.2]
      · rw [(splitTotalsAgainst_fields first _).2.2.1]
  · exact addTotalsSplits_sorted _ (List.sorted_insertionSort totalsLe _)
  · exact addTotalsSplits_convention _
  · intro hnone
    have hent : totalsEntries st = [] := by
      unfold totalsEntries
      rw [List.filterMap_eq_nil_iff]
      intro p hp
      by_cases h1 : p.2.isEmpty = true
      · rw [if_pos h1]
      · rw [if_neg h1]
        by_cases h2 : p.2.length = 5
        · exact absurd ((length_five_iff p.2 (hwf p hp).1 (hwf p hp).2).1 h2)
            (hnone p hp)
        · rw [if_neg h2]
    unfold get_overall_totals_leaderboard
    rw [hent]
    rfl

theorem totals_leaderboard_correct_witness :
    List.Sorted totalsLe (get_overall_totals_leaderboard totalsTieState) ∧
    splitConventionTotals (get_overall_totals_leaderboard totalsTieState) ∧
    (∃ e ∈ get_overall_totals_leaderboard totalsTieState,
      e.discord_id = 1 ∧ e.total_time = 300000) := by
  have hwf : timesWellFormed totalsTieState := by
    unfold timesWellFormed
    decide
  refine ⟨?_, ?_, ?_⟩
  · exact (totals_leaderboard_correct totalsTieState hwf).2.2.1
  · exact (totals_leaderboard_correct totalsTieState hwf).2.2.2.1
  · obtain ⟨e, he, h1, -, h3⟩ :=
      (totals_leaderboard_correct totalsTieState hwf).2.1
        (1, [(1, 60000), (2, 60000), (3, 60000), (4, 60000), (5, 60000)])
        (by decide)
        (by unfold hasAllFiveMaps; decide)
    exact ⟨e, he, h1, h3.trans (by decide)⟩
